import Mathlib

/-!
Verification of the jsonrules repository (a JSONPath-based JSON
transformation engine) against its natural-language specification.

The development shallowly embeds the two source modules:

* `src/automaton.js` (source file `src/unnamed/part_001`): the tree
  automaton that parses a JSONPath expression into segments and matches it
  against a document by breadth-first, level-synchronous exploration.
* `src/transformer.js`: aggregate operations, `extractValues`,
  `setValueAtPath` (backed by lodash `_.set`), `transformSingleRule`,
  `transform` and `validateRules`.

JavaScript values are modelled by the inductive type `Json` below; the JS
`undefined` value and the floating-point `NaN` get their own constructors
since library functions (`_.max` on an empty array, `_.mean` on an empty
array) produce them.  Numbers are modelled as integers: no claim exercises
fractional or floating-point arithmetic, which is outside the model.
-/

/-- Model of a JavaScript value as manipulated by the engine: JSON data
plus the JS `undefined` value and the float `NaN` (produced by empty-input
aggregates).  Numbers are modelled as integers. -/
inductive Json where
  | null
  | undef
  | nan
  | bool (b : Bool)
  | num (n : Int)
  | str (s : String)
  | arr (elems : List Json)
  | obj (fields : List (String × Json))
deriving Repr, BEq, Inhabited

/-- One step of a concrete location inside a document: an object key or an
array index.  The JS code stores these in the `currentPath` array as
strings and numbers respectively. -/
inductive PathElem where
  | key (s : String)
  | idx (n : Nat)
deriving Repr, DecidableEq

/-- Parsed path segment, as produced by `parseJsonPath` in
`src/automaton.js`: `{ type: 'property', value }`, `{ type: 'index',
value }` or `{ type: 'wildcard' }`.  The index payload is an
`Option Nat`: `none` models the JS `NaN` index that `parseInt` returns for
an empty bracket group (a segment that can never fire, since
`NaN < length` is false). -/
inductive Segment where
  | property (name : String)
  | index (n : Option Nat)
  | wildcard
deriving Repr, DecidableEq

/-- Automaton search state, mirroring the `AutomatonState` record of
`src/automaton.js`: position in the rule, current subtree and the concrete
path walked so far. -/
structure AutomatonState where
  ruleIndex : Nat
  currentValue : Json
  currentPath : List PathElem
deriving Repr

/-- Engine output unit: the `{ value, path }` records returned by
`TreeAutomaton.process`. -/
structure JMatch where
  value : Json
  path : List PathElem
deriving Repr

namespace Json

/-- Lodash `_.isObject`: true exactly for objects and arrays in this value
model (functions do not occur). -/
def isObject : Json → Bool
  | .obj _ => true
  | .arr _ => true
  | _ => false

/-- Lodash `_.isArray`. -/
def isArr : Json → Bool
  | .arr _ => true
  | _ => false

/-- Canonical array-index strings, i.e. the strings under which a JS array
has own element properties: `"0"`, or digits without a leading zero. -/
def isCanonicalIndex (s : String) : Bool :=
  match s.data with
  | [] => false
  | c :: cs => (c = '0' ∧ cs = []) ∨ (c.isDigit ∧ c ≠ '0' ∧ cs.all Char.isDigit)

/-- Numeric value of a digit string, as JS array indexing and `parseInt`
read it. -/
def charsToNat (cs : List Char) : Nat :=
  cs.foldl (fun a c => a * 10 + (c.toNat - 48)) 0

/-- Lookup of an object field by key (first occurrence; JS objects have
unique keys). -/
def findField (fields : List (String × Json)) (p : String) : Option Json :=
  (fields.find? (fun kv => kv.1 = p)).map (·.2)

/-- Lodash `_.has(v, p)` for a plain (dot-free) key `p`: own-property
test.  Objects own their fields; a JS array owns its element indices (in
canonical decimal form) and its `length` property. -/
def hasProp (v : Json) (p : String) : Bool :=
  match v with
  | .obj fields => (findField fields p).isSome
  | .arr elems => p = "length" ∨ (isCanonicalIndex p ∧ charsToNat p.data < elems.length)
  | _ => false

/-- JS member access `v[p]` for a plain key `p`, restricted to the cases
guarded by `hasProp` (absent members read as `undefined`). -/
def getProp (v : Json) (p : String) : Json :=
  match v with
  | .obj fields => (findField fields p).getD .undef
  | .arr elems =>
      if p = "length" then .num elems.length
      else if isCanonicalIndex p ∧ charsToNat p.data < elems.length then
        elems.getD (charsToNat p.data) .undef
      else .undef
  | _ => .undef

end Json

namespace TreeAutomaton

/-- Translation of `isAcceptingState` from `src/automaton.js`:
`state.ruleIndex >= this.rule.length`. -/
def isAcceptingState (rule : List Segment) (state : AutomatonState) : Bool :=
  rule.length ≤ state.ruleIndex

/-- Translation of `handlePropertyTransition` from `src/automaton.js`. -/
def handlePropertyTransition (state : AutomatonState) (property : String) :
    List AutomatonState :=
  if state.currentValue.isObject ∧ state.currentValue.hasProp property then
    [{ state with
        ruleIndex := state.ruleIndex + 1,
        currentValue := state.currentValue.getProp property,
        currentPath := state.currentPath ++ [PathElem.key property] }]
  else []

/-- Translation of `handleWildcardTransition` from `src/automaton.js`: one
successor per array element, in element order. -/
def handleWildcardTransition (state : AutomatonState) : List AutomatonState :=
  match state.currentValue with
  | Json.arr items =>
      items.mapIdx (fun index item =>
        { state with
            ruleIndex := state.ruleIndex + 1,
            currentValue := item,
            currentPath := state.currentPath ++ [PathElem.idx index] })
  | _ => []

/-- Translation of `handleIndexTransition` from `src/automaton.js`.  The
`none` index (JS `NaN`) never satisfies `index < length`. -/
def handleIndexTransition (state : AutomatonState) (n : Option Nat) :
    List AutomatonState :=
  match state.currentValue, n with
  | Json.arr items, some i =>
      if i < items.length then
        [{ state with
            ruleIndex := state.ruleIndex + 1,
            currentValue := items.getD i Json.undef,
            currentPath := state.currentPath ++ [PathElem.idx i] }]
      else []
  | _, _ => []

/-- Translation of `transition` from `src/automaton.js`: an accepting state
is returned unchanged, otherwise the handler of the next rule segment is
applied.  The `none` case of the rule lookup is unreachable (a
non-accepting state has `ruleIndex < rule.length`). -/
def transition (rule : List Segment) (state : AutomatonState) :
    List AutomatonState :=
  if isAcceptingState rule state then [state]
  else
    match rule.get? state.ruleIndex with
    | some (Segment.property p) => handlePropertyTransition state p
    | some (Segment.index n) => handleIndexTransition state n
    | some Segment.wildcard => handleWildcardTransition state
    | none => []

/-- Initial state of a `process` call: document root, no segment consumed,
empty path. -/
def initState (jsonData : Json) : AutomatonState :=
  { ruleIndex := 0, currentValue := jsonData, currentPath := [] }

/-- Fuel-indexed translation of the `while (currentStates.length > 0)` loop
of `process` in `src/automaton.js`.  Each fuel unit is one loop iteration
(one breadth-first round); `none` is returned if the fuel runs out with a
non-empty frontier, which the termination theorem shows never happens for
fuel `rule.length + 1`. -/
def processAux (rule : List Segment) : Nat → List AutomatonState → Option (List JMatch)
  | _, [] => some []
  | 0, _ :: _ => none
  | fuel + 1, currentStates =>
      let nextStates := currentStates.flatMap (transition rule)
      let acceptingStates := nextStates.filter (isAcceptingState rule)
      let continuingStates := nextStates.filter (fun s => ! isAcceptingState rule s)
      if 0 < acceptingStates.length then
        some (acceptingStates.map (fun s => ⟨s.currentValue, s.currentPath⟩))
      else
        processAux rule fuel continuingStates

/-- Translation of `TreeAutomaton.process`, run with enough fuel for the
loop to finish (termination is proved separately). -/
def process (rule : List Segment) (jsonData : Json) : List JMatch :=
  (processAux rule (rule.length + 1) [initState jsonData]).getD []

end TreeAutomaton

/-!
Specification-side semantics.  The definitions below follow the words of
spec section 4.2 (the per-segment transition rules and the breadth-first
levels) and are compared with the source translation `process` by the
refinement theorems.
-/

namespace TreeAutomaton

/-- Successors of a subtree under one segment, following the three
transition rules of spec section 4.2 verbatim: a matching property or
in-bounds index yields exactly one successor, a wildcard on an array
yields one successor per element in order, everything else yields none. -/
def specSuccs (v : Json) : Segment → List (PathElem × Json)
  | Segment.property p =>
      if v.isObject ∧ v.hasProp p then [(PathElem.key p, v.getProp p)] else []
  | Segment.index n =>
      match v, n with
      | Json.arr items, some i =>
          if i < items.length then [(PathElem.idx i, items.getD i Json.undef)] else []
      | _, _ => []
  | Segment.wildcard =>
      match v with
      | Json.arr items => items.mapIdx (fun i item => (PathElem.idx i, item))
      | _ => []

/-- Denotational matching relation of the spec: all `(location, value)`
pairs obtained by satisfying the whole segment sequence, enumerated
left-to-right and outer-to-inner (spec sections 4.2 and 8). -/
def sem (v : Json) : List Segment → List (List PathElem × Json)
  | [] => [([], v)]
  | seg :: rest =>
      (specSuccs v seg).flatMap (fun ev =>
        (sem ev.2 rest).map (fun pw => (ev.1 :: pw.1, pw.2)))

/-- Matches contributed by one live automaton state: the spec semantics of
the remaining segments, relocated under the state's accumulated path. -/
def semState (rule : List Segment) (s : AutomatonState) : List JMatch :=
  (sem s.currentValue (rule.drop s.ruleIndex)).map
    (fun pw => ⟨pw.2, s.currentPath ++ pw.1⟩)

/-- Breadth-first levels of the exploration, per spec section 4.2: level 0
is the single root state and each next level applies the transition to
every state of the previous one, in order. -/
def levelStates (rule : List Segment) (jsonData : Json) : Nat → List AutomatonState
  | 0 => [initState jsonData]
  | n + 1 => (levelStates rule jsonData n).flatMap (transition rule)

/-- Accepting states present at a given breadth-first level. -/
def acceptingAtLevel (rule : List Segment) (jsonData : Json) (n : Nat) :
    List AutomatonState :=
  (levelStates rule jsonData n).filter (isAcceptingState rule)

/-- Earliest breadth-first level carrying an accepting state, searched up
to the segment count (deeper levels cannot introduce one, as proved in
`acceptingAtLevel_eq_nil_of_none`). -/
def firstAcceptingLevel (rule : List Segment) (jsonData : Json) : Option Nat :=
  (List.range (rule.length + 1)).find?
    (fun n => 0 < (acceptingAtLevel rule jsonData n).length)

/-- Deterministic evaluation of a wildcard-free segment chain, used to
state the one- and two-wildcard claims: the unique subtree reached by
satisfying every property/index segment, if all succeed. -/
def detRun : Json → List Segment → Option Json
  | v, [] => some v
  | v, Segment.property p :: rest =>
      if v.isObject ∧ v.hasProp p then detRun (v.getProp p) rest else none
  | v, Segment.index n :: rest =>
      match v, n with
      | Json.arr items, some i =>
          if i < items.length then detRun (items.getD i Json.undef) rest else none
      | _, _ => none
  | _, Segment.wildcard :: _ => none

/-- Location contributed by a wildcard-free segment chain (independent of
the document, since each segment names its own key or index).  Wildcard
and `NaN`-index segments contribute nothing; they only occur where
`detRun` fails anyway. -/
def segPath : List Segment → List PathElem
  | [] => []
  | Segment.property p :: rest => PathElem.key p :: segPath rest
  | Segment.index (some i) :: rest => PathElem.idx i :: segPath rest
  | Segment.index none :: rest => segPath rest
  | Segment.wildcard :: rest => segPath rest

/-- Segment chains without a wildcard. -/
def wildcardFree (segs : List Segment) : Bool :=
  segs.all (fun s => match s with | Segment.wildcard => false | _ => true)

end TreeAutomaton

namespace TreeAutomaton

/-- Match record produced from an accepting state. -/
def toMatch (s : AutomatonState) : JMatch :=
  ⟨s.currentValue, s.currentPath⟩

/-- Successor state built from one spec-level successor pair. -/
def succState (s : AutomatonState) (ev : PathElem × Json) : AutomatonState :=
  { ruleIndex := s.ruleIndex + 1,
    currentValue := ev.2,
    currentPath := s.currentPath ++ [ev.1] }

theorem flatMap_map_singleton {α β : Type} (l : List α) (f : α → β) :
    l.flatMap (fun x => [f x]) = l.map f := by
  induction l with
  | nil => rfl
  | cons a l ih => simp [List.flatMap_cons, ih]

theorem map_mapIdx {α β γ : Type} (l : List α) (f : Nat → α → β) (g : β → γ) :
    (l.mapIdx f).map g = l.mapIdx (fun i a => g (f i a)) := by
  induction l generalizing f with
  | nil => rfl
  | cons a l ih => simp only [List.mapIdx_cons, List.map_cons, ih]

theorem handlePropertyTransition_eq (s : AutomatonState) (p : String) :
    handlePropertyTransition s p =
      (specSuccs s.currentValue (Segment.property p)).map (succState s) := by
  simp only [handlePropertyTransition, specSuccs]
  split <;> rfl

theorem handleIndexTransition_eq (s : AutomatonState) (n : Option Nat) :
    handleIndexTransition s n =
      (specSuccs s.currentValue (Segment.index n)).map (succState s) := by
  simp only [handleIndexTransition, specSuccs]
  cases s.currentValue <;> cases n <;> first | rfl | (dsimp only; split_ifs <;> rfl)

theorem handleWildcardTransition_eq (s : AutomatonState) :
    handleWildcardTransition s =
      (specSuccs s.currentValue Segment.wildcard).map (succState s) := by
  simp only [handleWildcardTransition, specSuccs]
  cases s.currentValue <;> try rfl
  rw [map_mapIdx]
  rfl

theorem transition_accepting (rule : List Segment) (s : AutomatonState)
    (h : isAcceptingState rule s = true) : transition rule s = [s] := by
  unfold transition
  simp [h]

theorem transition_nonaccepting (rule : List Segment) (s : AutomatonState)
    (seg : Segment) (h : isAcceptingState rule s = false)
    (hseg : rule.get? s.ruleIndex = some seg) :
    transition rule s = (specSuccs s.currentValue seg).map (succState s) := by
  unfold transition
  rw [h]
  simp only [Bool.false_eq_true, if_false, hseg]
  cases seg with
  | property p => exact handlePropertyTransition_eq s p
  | index n => exact handleIndexTransition_eq s n
  | wildcard => exact handleWildcardTransition_eq s

theorem ruleIndex_of_mem_transition (rule : List Segment) (s s' : AutomatonState)
    (h : isAcceptingState rule s = false) (hmem : s' ∈ transition rule s) :
    s'.ruleIndex = s.ruleIndex + 1 := by
  have hlt : s.ruleIndex < rule.length := by
    by_contra hge
    simp [isAcceptingState, Nat.le_of_not_lt hge] at h
  obtain ⟨seg, hseg⟩ : ∃ seg, rule.get? s.ruleIndex = some seg := by
    rcases List.get?_eq_some.mpr ⟨hlt, rfl⟩ with h'
    exact ⟨_, h'⟩
  rw [transition_nonaccepting rule s seg h hseg] at hmem
  rcases List.mem_map.mp hmem with ⟨ev, _, rfl⟩
  rfl

theorem semState_accepting (rule : List Segment) (s : AutomatonState)
    (h : rule.length ≤ s.ruleIndex) : semState rule s = [toMatch s] := by
  unfold semState
  rw [List.drop_eq_nil_of_le h]
  simp [sem, toMatch]

theorem semState_step (rule : List Segment) (s : AutomatonState)
    (hlt : s.ruleIndex < rule.length) :
    (transition rule s).flatMap (semState rule) = semState rule s := by
  have hacc : isAcceptingState rule s = false := by
    simp [isAcceptingState, Nat.not_le_of_lt hlt]
  have hseg : rule.get? s.ruleIndex = some (rule.get ⟨s.ruleIndex, hlt⟩) :=
    List.get?_eq_get hlt
  rw [transition_nonaccepting rule s _ hacc hseg]
  rw [List.flatMap_map]
  conv_rhs => rw [semState]
  rw [List.drop_eq_getElem_cons hlt]
  have hgetelem : rule[s.ruleIndex] = rule.get ⟨s.ruleIndex, hlt⟩ := rfl
  rw [hgetelem, sem]
  rw [List.map_flatMap]
  apply List.flatMap_congr
  intro ev _
  unfold semState succState
  simp only [List.map_map]
  apply List.map_congr_left
  intro pw _
  simp [succState, List.append_assoc]

theorem frontier_semState_step (rule : List Segment) (SS : List AutomatonState)
    (h : ∀ s ∈ SS, s.ruleIndex < rule.length) :
    (SS.flatMap (transition rule)).flatMap (semState rule) =
      SS.flatMap (semState rule) := by
  rw [List.flatMap_assoc]
  apply List.flatMap_congr
  intro s hs
  exact semState_step rule s (h s hs)

end TreeAutomaton

namespace TreeAutomaton

theorem isAccepting_true_iff (rule : List Segment) (s : AutomatonState) :
    isAcceptingState rule s = true ↔ rule.length ≤ s.ruleIndex := by
  simp [isAcceptingState]

theorem isAccepting_false_iff (rule : List Segment) (s : AutomatonState) :
    isAcceptingState rule s = false ↔ s.ruleIndex < rule.length := by
  simp [isAcceptingState, Nat.not_le, Nat.lt_iff_add_one_le]

theorem processAux_nil (rule : List Segment) (fuel : Nat) :
    processAux rule fuel [] = some [] := by
  cases fuel <;> rfl

theorem processAux_accepting (rule : List Segment) (fuel : Nat)
    (SS : List AutomatonState) (h : ∀ s ∈ SS, rule.length ≤ s.ruleIndex)
    (hf : 1 ≤ fuel) : processAux rule fuel SS = some (SS.map toMatch) := by
  cases SS with
  | nil => cases fuel <;> rfl
  | cons a as =>
    obtain ⟨f, rfl⟩ : ∃ f, fuel = f + 1 := ⟨fuel - 1, by omega⟩
    have hall : ∀ s ∈ a :: as, isAcceptingState rule s = true := by
      intro s hs
      exact (isAccepting_true_iff rule s).mpr (h s hs)
    have h1 : (a :: as).flatMap (transition rule) = a :: as := by
      calc (a :: as).flatMap (transition rule)
          = (a :: as).flatMap (fun s => [s]) :=
            List.flatMap_congr (fun s hs => transition_accepting rule s (hall s hs))
        _ = a :: as := List.flatMap_singleton' _
    simp only [processAux, h1]
    rw [List.filter_eq_self.mpr hall]
    simp [toMatch]

theorem processAux_eq_flatMap (rule : List Segment) :
    ∀ (k fuel : Nat) (SS : List AutomatonState),
      (∀ s ∈ SS, s.ruleIndex + (k + 1) = rule.length) → k + 1 ≤ fuel →
      processAux rule fuel SS = some (SS.flatMap (semState rule)) := by
  intro k
  induction k with
  | zero =>
    intro fuel SS h hf
    cases SS with
    | nil => cases fuel <;> rfl
    | cons a as =>
      obtain ⟨f, rfl⟩ : ∃ f, fuel = f + 1 := ⟨fuel - 1, by omega⟩
      have hlt : ∀ s ∈ a :: as, s.ruleIndex < rule.length := by
        intro s hs
        have := h s hs
        omega
      have hnextIdx : ∀ s' ∈ (a :: as).flatMap (transition rule),
          rule.length ≤ s'.ruleIndex := by
        intro s' hs'
        rcases List.mem_flatMap.mp hs' with ⟨s, hs, hmem⟩
        have hna : isAcceptingState rule s = false :=
          (isAccepting_false_iff rule s).mpr (hlt s hs)
        have := ruleIndex_of_mem_transition rule s s' hna hmem
        have := h s hs
        omega
      have hsem : ((a :: as).flatMap (transition rule)).flatMap (semState rule) =
          (a :: as).flatMap (semState rule) :=
        frontier_semState_step rule (a :: as) hlt
      simp only [processAux]
      rw [List.filter_eq_self.mpr
        (fun s hs => (isAccepting_true_iff rule s).mpr (hnextIdx s hs))]
      rw [List.filter_eq_nil_iff.mpr
        (fun s hs => by simp [(isAccepting_true_iff rule s).mpr (hnextIdx s hs)])]
      rw [← hsem]
      rw [List.flatMap_congr
        (fun s hs => semState_accepting rule s (hnextIdx s hs)),
        flatMap_map_singleton]
      by_cases hne : 0 < ((a :: as).flatMap (transition rule)).length
      · rw [if_pos hne]
        rfl
      · rw [if_neg hne]
        have hnil : (a :: as).flatMap (transition rule) = [] := by
          cases hx : (a :: as).flatMap (transition rule) with
          | nil => rfl
          | cons b bs => rw [hx] at hne; simp at hne
        rw [hnil, processAux_nil]
        rfl
  | succ k ih =>
    intro fuel SS h hf
    cases SS with
    | nil => cases fuel <;> rfl
    | cons a as =>
      obtain ⟨f, rfl⟩ : ∃ f, fuel = f + 1 := ⟨fuel - 1, by omega⟩
      have hlt : ∀ s ∈ a :: as, s.ruleIndex < rule.length := by
        intro s hs
        have := h s hs
        omega
      have hnextIdx : ∀ s' ∈ (a :: as).flatMap (transition rule),
          s'.ruleIndex + (k + 1) = rule.length := by
        intro s' hs'
        rcases List.mem_flatMap.mp hs' with ⟨s, hs, hmem⟩
        have hna : isAcceptingState rule s = false :=
          (isAccepting_false_iff rule s).mpr (hlt s hs)
        have := ruleIndex_of_mem_transition rule s s' hna hmem
        have := h s hs
        omega
      have hnextNa : ∀ s' ∈ (a :: as).flatMap (transition rule),
          isAcceptingState rule s' = false := by
        intro s' hs'
        have := hnextIdx s' hs'
        exact (isAccepting_false_iff rule s').mpr (by omega)
      simp only [processAux]
      rw [List.filter_eq_nil_iff.mpr
        (fun s hs => by simp [hnextNa s hs])]
      rw [List.filter_eq_self.mpr (fun s hs => by simp [hnextNa s hs])]
      simp only [List.length_nil, Nat.lt_irrefl, if_false]
      rw [ih f ((a :: as).flatMap (transition rule)) hnextIdx (by omega)]
      rw [frontier_semState_step rule (a :: as) hlt]

theorem process_eq_semState_init (rule : List Segment) (jsonData : Json) :
    process rule jsonData = semState rule (initState jsonData) := by
  cases hr : rule with
  | nil =>
    unfold process
    rw [processAux_accepting [] ([].length + 1) [initState jsonData]
      (by intro s hs; simp at hs; subst hs; exact Nat.zero_le _) (by simp)]
    rw [semState_accepting [] (initState jsonData) (Nat.zero_le _)]
    rfl
  | cons a rs =>
    unfold process
    rw [processAux_eq_flatMap (a :: rs) rs.length ((a :: rs).length + 1)
      [initState jsonData]
      (by intro s hs; simp at hs; subst hs; simp [initState])
      (by simp)]
    rw [List.flatMap_singleton]
    rfl

theorem process_eq_sem (rule : List Segment) (jsonData : Json) :
    process rule jsonData = (sem jsonData rule).map (fun pw => ⟨pw.2, pw.1⟩) := by
  rw [process_eq_semState_init]
  unfold semState initState
  simp

end TreeAutomaton

namespace TreeAutomaton

theorem levelStates_ruleIndex (rule : List Segment) (jsonData : Json) :
    ∀ n, n ≤ rule.length → ∀ s ∈ levelStates rule jsonData n, s.ruleIndex = n := by
  intro n
  induction n with
  | zero =>
    intro _ s hs
    simp [levelStates] at hs
    subst hs
    rfl
  | succ n ih =>
    intro hn s hs
    simp only [levelStates] at hs
    rcases List.mem_flatMap.mp hs with ⟨t, ht, hmem⟩
    have hidx : t.ruleIndex = n := ih (by omega) t ht
    have hna : isAcceptingState rule t = false :=
      (isAccepting_false_iff rule t).mpr (by omega)
    have := ruleIndex_of_mem_transition rule t s hna hmem
    omega

theorem acceptingAtLevel_eq_nil_of_lt (rule : List Segment) (jsonData : Json)
    (n : Nat) (hn : n < rule.length) : acceptingAtLevel rule jsonData n = [] := by
  unfold acceptingAtLevel
  rw [List.filter_eq_nil_iff]
  intro s hs
  have := levelStates_ruleIndex rule jsonData n (by omega) s hs
  simp [(isAccepting_false_iff rule s).mpr (by omega)]

theorem acceptingAtLevel_at_length (rule : List Segment) (jsonData : Json) :
    acceptingAtLevel rule jsonData rule.length = levelStates rule jsonData rule.length := by
  unfold acceptingAtLevel
  apply List.filter_eq_self.mpr
  intro s hs
  have := levelStates_ruleIndex rule jsonData rule.length (Nat.le_refl _) s hs
  exact (isAccepting_true_iff rule s).mpr (by omega)

theorem levelStates_flatMap_semState (rule : List Segment) (jsonData : Json) :
    ∀ n, n ≤ rule.length →
      (levelStates rule jsonData n).flatMap (semState rule) =
        semState rule (initState jsonData) := by
  intro n
  induction n with
  | zero => simp [levelStates]
  | succ n ih =>
    intro hn
    simp only [levelStates]
    rw [frontier_semState_step rule _ (fun s hs => by
      have := levelStates_ruleIndex rule jsonData n (by omega) s hs
      omega)]
    exact ih (by omega)

theorem levelStates_nil_of_nil (rule : List Segment) (jsonData : Json)
    (n : Nat) (h : levelStates rule jsonData n = []) :
    ∀ m, n ≤ m → levelStates rule jsonData m = [] := by
  intro m hm
  obtain ⟨j, rfl⟩ : ∃ j, m = n + j := ⟨m - n, by omega⟩
  induction j with
  | zero => exact h
  | succ j ihj =>
    have hj : levelStates rule jsonData (n + j) = [] := ihj (by omega)
    show (levelStates rule jsonData (n + j)).flatMap (transition rule) = []
    rw [hj]
    rfl

theorem acceptingAtLevel_beyond (rule : List Segment) (jsonData : Json)
    (h : levelStates rule jsonData rule.length = []) (n : Nat) :
    acceptingAtLevel rule jsonData n = [] := by
  rcases Nat.lt_or_ge n rule.length with hlt | hge
  · exact acceptingAtLevel_eq_nil_of_lt rule jsonData n hlt
  · unfold acceptingAtLevel
    rw [levelStates_nil_of_nil rule jsonData rule.length h n hge]
    rfl

theorem process_eq_levelStates_map (rule : List Segment) (jsonData : Json) :
    process rule jsonData =
      (levelStates rule jsonData rule.length).map toMatch := by
  rw [process_eq_semState_init]
  rw [← levelStates_flatMap_semState rule jsonData rule.length (Nat.le_refl _)]
  rw [List.flatMap_congr (fun s hs => semState_accepting rule s (by
    have := levelStates_ruleIndex rule jsonData rule.length (Nat.le_refl _) s hs
    omega))]
  rw [flatMap_map_singleton]

end TreeAutomaton

namespace TreeAutomaton

/-- Stripping of the leading root marker, the `replace(/^\$\.?/, '')` in
`parseJsonPath`. -/
def stripRoot (s : String) : String :=
  if s.data.take 2 = ['$', '.'] then ⟨s.data.drop 2⟩
  else if s.data.take 1 = ['$'] then ⟨s.data.drop 1⟩
  else s

/-- Segments contributed when a bracket group closes, mirroring the `]`
branch of `parseJsonPath`: `*` gives a wildcard, otherwise content passing
the JS `!isNaN` test gives an index via `parseInt`.  Modelled fragment of
JS numeric strings: the empty string (`Number('')` is `0`, and
`parseInt('')` is `NaN`, modelled as the dead index `none`) and digit
strings; exotic numeric literal forms (signs, fractions, exponents, hex,
whitespace) are treated as non-numeric and dropped — no path expression in
the repository or its tests uses them. -/
def closeBracket (current : List Char) : List Segment :=
  if current = ['*'] then [Segment.wildcard]
  else if current = [] then [Segment.index none]
  else if current.all Char.isDigit then [Segment.index (some (Json.charsToNat current))]
  else []

/-- Scanner state of `parseJsonPath`: accumulated segments, pending
characters of `current` and the `inBracket` flag. -/
structure ParseState where
  segments : List Segment
  current : List Char
  inBracket : Bool
deriving Repr, DecidableEq

/-- Flush of a pending property name (`if (current) segments.push(...)` in
`parseJsonPath`). -/
def flushProperty (segments : List Segment) (current : List Char) : List Segment :=
  if current = [] then segments else segments ++ [Segment.property ⟨current⟩]

/-- One character of the `parseJsonPath` scanning loop. -/
def parseStep (st : ParseState) (c : Char) : ParseState :=
  if c = '[' then
    { segments := flushProperty st.segments st.current, current := [], inBracket := true }
  else if c = ']' then
    { segments := st.segments ++ closeBracket st.current, current := [],
      inBracket := false }
  else if c = '.' ∧ st.inBracket = false then
    { segments := flushProperty st.segments st.current, current := [],
      inBracket := st.inBracket }
  else
    { st with current := st.current ++ [c] }

/-- Translation of `parseJsonPath` from `src/automaton.js`: strip the root
marker, scan character by character, and flush any pending property name
at the end of the input. -/
def parseJsonPath (jsonPath : String) : List Segment :=
  let cleanPath := stripRoot jsonPath
  let st := cleanPath.data.foldl parseStep ⟨[], [], false⟩
  flushProperty st.segments st.current

end TreeAutomaton

open TreeAutomaton

/-- C1: for every document and parsed segment sequence, `process` returns
exactly the accepting states — as (value, location) matches in generation
order — of the earliest breadth-first level at which at least one
accepting state exists, and the empty list if no accepting state ever
arises at any level. -/
theorem claim_C1 (rule : List Segment) (jsonData : Json) :
    (process rule jsonData =
      match firstAcceptingLevel rule jsonData with
      | some n => (acceptingAtLevel rule jsonData n).map toMatch
      | none => [])
    ∧ (firstAcceptingLevel rule jsonData = none →
        ∀ n, acceptingAtLevel rule jsonData n = []) := by
  have hfind : firstAcceptingLevel rule jsonData =
      (if 0 < (acceptingAtLevel rule jsonData rule.length).length then
        some rule.length else none) := by
    unfold firstAcceptingLevel
    rw [List.range_succ, List.find?_append]
    rw [List.find?_eq_none.mpr (fun n hn => by
      have hnL : n < rule.length := List.mem_range.mp hn
      rw [acceptingAtLevel_eq_nil_of_lt rule jsonData n hnL]
      simp)]
    rw [Option.none_or]
    by_cases hp : 0 < (acceptingAtLevel rule jsonData rule.length).length
    · simp [List.find?, hp]
    · simp [List.find?, hp]
  have hempty : ¬ 0 < (acceptingAtLevel rule jsonData rule.length).length →
      levelStates rule jsonData rule.length = [] := by
    intro hp
    have h0 : acceptingAtLevel rule jsonData rule.length = [] := by
      cases h : acceptingAtLevel rule jsonData rule.length with
      | nil => rfl
      | cons a as => rw [h] at hp; simp at hp
    rw [← acceptingAtLevel_at_length]
    exact h0
  constructor
  · rw [hfind]
    by_cases hp : 0 < (acceptingAtLevel rule jsonData rule.length).length
    · rw [if_pos hp]
      dsimp only
      rw [process_eq_levelStates_map, acceptingAtLevel_at_length]
    · rw [if_neg hp]
      dsimp only
      rw [process_eq_levelStates_map, hempty hp]
      rfl
  · intro hnone n
    rw [hfind] at hnone
    by_cases hp : 0 < (acceptingAtLevel rule jsonData rule.length).length
    · rw [if_pos hp] at hnone
      exact absurd hnone (by simp)
    · exact acceptingAtLevel_beyond rule jsonData (hempty hp) n

/-- C9: `process` is total — the breadth-first loop, embedded with one
fuel unit per processing round, finishes within `rule.length + 1` rounds
for every document and segment sequence (and within `rule.length` rounds
whenever the segment sequence is non-empty) — and every transition taken
from a non-accepting state advances the consumed-segment index by exactly
one. -/
theorem claim_C9 (rule : List Segment) (jsonData : Json) :
    (processAux rule (rule.length + 1) [initState jsonData]).isSome = true
    ∧ (0 < rule.length →
        (processAux rule rule.length [initState jsonData]).isSome = true)
    ∧ (∀ s : AutomatonState, isAcceptingState rule s = false →
        (transition rule s).all (fun s' => s'.ruleIndex == s.ruleIndex + 1) = true) := by
  refine ⟨?_, ?_, ?_⟩
  · cases hr : rule with
    | nil =>
      rw [processAux_accepting _ _ _
        (by intro s hs; simp at hs; subst hs; exact Nat.zero_le _) (by simp)]
      rfl
    | cons a rs =>
      rw [processAux_eq_flatMap (a :: rs) rs.length ((a :: rs).length + 1)
        [initState jsonData]
        (by intro s hs; simp at hs; subst hs; simp [initState]) (by simp)]
      rfl
  · intro hpos
    obtain ⟨m, hm⟩ : ∃ m, rule.length = m + 1 := ⟨rule.length - 1, by omega⟩
    rw [hm, processAux_eq_flatMap rule m (m + 1) [initState jsonData]
      (by intro s hs; simp at hs; subst hs; simp [initState, hm]) (Nat.le_refl _)]
    rfl
  · intro s hna
    rw [List.all_eq_true]
    intro s' hs'
    have := ruleIndex_of_mem_transition rule s s' hna hs'
    simp [this]

/-- C10: the root-only path expression is parsed to the empty segment
sequence, and processing it returns exactly one match carrying the whole
input document at the empty location. -/
theorem claim_C10 (jsonData : Json) :
    parseJsonPath "$" = [] ∧
    process (parseJsonPath "$") jsonData = [⟨jsonData, []⟩] := by
  have hparse : parseJsonPath "$" = [] := by decide
  refine ⟨hparse, ?_⟩
  rw [hparse, process_eq_semState_init,
    semState_accepting [] (initState jsonData) (Nat.zero_le _)]
  rfl

/-- Witness for C9 at a concrete one-wildcard rule and document. -/
theorem claim_C9_witness :
    (processAux [Segment.wildcard] ([Segment.wildcard].length + 1)
      [initState (Json.arr [Json.num 1])]).isSome = true
    ∧ (processAux [Segment.wildcard] [Segment.wildcard].length
        [initState (Json.arr [Json.num 1])]).isSome = true
    ∧ (transition [Segment.wildcard] (initState (Json.arr [Json.num 1]))).all
        (fun s' => s'.ruleIndex ==
          (initState (Json.arr [Json.num 1])).ruleIndex + 1) = true :=
  ⟨(claim_C9 [Segment.wildcard] (Json.arr [Json.num 1])).1,
   (claim_C9 [Segment.wildcard] (Json.arr [Json.num 1])).2.1 (by decide),
   (claim_C9 [Segment.wildcard] (Json.arr [Json.num 1])).2.2 _ (by decide)⟩

namespace TreeAutomaton

theorem sem_append (v : Json) (xs ys : List Segment) :
    sem v (xs ++ ys) = (sem v xs).flatMap (fun pw =>
      (sem pw.2 ys).map (fun qw => (pw.1 ++ qw.1, qw.2))) := by
  induction xs generalizing v with
  | nil => simp [sem]
  | cons seg rest ih =>
    simp only [List.cons_append, sem]
    rw [List.flatMap_assoc]
    apply List.flatMap_congr
    intro ev _
    simp only [List.append_eq]
    rw [ih ev.2, List.map_flatMap, List.flatMap_map]
    apply List.flatMap_congr
    intro pw _
    rw [List.map_map]
    apply List.map_congr_left
    intro qw _
    simp [Function.comp]

theorem sem_wildcard_cons (items : List Json) (rest : List Segment) :
    sem (Json.arr items) (Segment.wildcard :: rest) =
      (items.mapIdx (fun i item => (PathElem.idx i, item))).flatMap
        (fun ev => (sem ev.2 rest).map (fun pw => (ev.1 :: pw.1, pw.2))) := by
  rfl

theorem sem_of_wildcardFree (segs : List Segment) (v : Json)
    (h : wildcardFree segs = true) :
    sem v segs = (match detRun v segs with
      | some w => [(segPath segs, w)]
      | none => []) := by
  induction segs generalizing v with
  | nil => rfl
  | cons seg rest ih =>
    have hrest : wildcardFree rest = true := by
      simp only [wildcardFree, List.all_cons, Bool.and_eq_true] at h
      exact h.2
    cases seg with
    | property p =>
      simp only [sem, specSuccs, detRun, segPath]
      by_cases hc : v.isObject = true ∧ v.hasProp p = true
      · rw [if_pos hc, if_pos hc, List.flatMap_singleton, ih (v.getProp p) hrest]
        cases detRun (v.getProp p) rest <;> simp
      · rw [if_neg hc, if_neg hc]
        rfl
    | index n =>
      cases v with
      | arr items =>
        cases n with
        | some i =>
          simp only [sem, specSuccs, detRun, segPath]
          by_cases hc : i < items.length
          · rw [if_pos hc, if_pos hc, List.flatMap_singleton,
              ih (items.getD i Json.undef) hrest]
            cases detRun (items.getD i Json.undef) rest <;> simp
          · rw [if_neg hc, if_neg hc]
            rfl
        | none => rfl
      | null => cases n <;> rfl
      | undef => cases n <;> rfl
      | nan => cases n <;> rfl
      | bool b => cases n <;> rfl
      | num m => cases n <;> rfl
      | str s => cases n <;> rfl
      | obj fields => cases n <;> rfl
    | wildcard =>
      exfalso
      simp [wildcardFree, List.all_cons] at h

end TreeAutomaton

namespace TreeAutomaton

theorem mapIdx_flatMap_eq (post : List Segment) (w : Json → Json) :
    ∀ (elems : List Json) (t : Nat → PathElem),
      (∀ e ∈ elems, sem e post = [(segPath post, w e)]) →
      (elems.mapIdx (fun i e => (t i, e))).flatMap
        (fun ev => (sem ev.2 post).map (fun pw => (ev.1 :: pw.1, pw.2))) =
      elems.mapIdx (fun i e => (t i :: segPath post, w e)) := by
  intro elems
  induction elems with
  | nil => intro t _; rfl
  | cons e es ih =>
    intro t h
    rw [List.mapIdx_cons, List.mapIdx_cons, List.flatMap_cons]
    rw [h e (by simp)]
    rw [ih (fun i => t (i + 1)) (fun x hx => h x (by simp [hx]))]
    rfl

theorem sem_eq_single_of_detRun (segs : List Segment) (v : Json) (u : Json)
    (hfree : wildcardFree segs = true) (hdet : detRun v segs = some u) :
    sem v segs = [(segPath segs, u)] := by
  rw [sem_of_wildcardFree segs v hfree, hdet]

end TreeAutomaton

/-- C2: for a path of the shape `pre ++ [*] ++ post` with `pre` and `post`
wildcard-free, evaluated on a document where `pre` reaches an array and
`post` succeeds under every element, `process` returns one match per array
element, in element order, with locations identical except at the wildcard
position, which takes the element indices 0, 1, 2, ... in order. -/
theorem claim_C2 (jsonData : Json) (pre post : List Segment)
    (elems : List Json) (w : Json → Json)
    (hpre : wildcardFree pre = true) (hpost : wildcardFree post = true)
    (hdet : detRun jsonData pre = some (Json.arr elems))
    (hw : ∀ e ∈ elems, detRun e post = some (w e)) :
    process (pre ++ Segment.wildcard :: post) jsonData =
      elems.mapIdx (fun i e =>
        ⟨w e, segPath pre ++ PathElem.idx i :: segPath post⟩) := by
  rw [process_eq_sem, sem_append,
    sem_eq_single_of_detRun pre jsonData (Json.arr elems) hpre hdet,
    List.flatMap_singleton, sem_wildcard_cons,
    mapIdx_flatMap_eq post w elems PathElem.idx
      (fun e he => sem_eq_single_of_detRun post e (w e) hpost (hw e he)),
    map_mapIdx, map_mapIdx]

/-- Witness for C2 on a two-element array under the path `$.a[*]`. -/
theorem claim_C2_witness :
    process [Segment.property "a", Segment.wildcard]
        (Json.obj [("a", Json.arr [Json.num 10, Json.num 20])]) =
      [Json.num 10, Json.num 20].mapIdx (fun i e =>
        ⟨e, [PathElem.key "a"] ++ PathElem.idx i :: segPath []⟩) :=
  claim_C2 (Json.obj [("a", Json.arr [Json.num 10, Json.num 20])])
    [Segment.property "a"] [] [Json.num 10, Json.num 20] (fun e => e)
    (by decide) (by decide) rfl (fun e _ => rfl)

namespace TreeAutomaton

theorem mapIdx_ignore {α β : Type} :
    ∀ (l : List α) (g : α → β), l.mapIdx (fun _ a => g a) = l.map g := by
  intro l g
  induction l with
  | nil => rfl
  | cons a as ih => rw [List.mapIdx_cons, List.map_cons, ih]

theorem sem_one_wildcard (v : Json) (pre post : List Segment)
    (elems : List Json) (w : Json → Json)
    (hpre : wildcardFree pre = true) (hpost : wildcardFree post = true)
    (hdet : detRun v pre = some (Json.arr elems))
    (hw : ∀ e ∈ elems, detRun e post = some (w e)) :
    sem v (pre ++ Segment.wildcard :: post) =
      elems.mapIdx (fun i e =>
        (segPath pre ++ PathElem.idx i :: segPath post, w e)) := by
  rw [sem_append, sem_eq_single_of_detRun pre v _ hpre hdet,
    List.flatMap_singleton, sem_wildcard_cons,
    mapIdx_flatMap_eq post w elems PathElem.idx
      (fun e he => sem_eq_single_of_detRun post e (w e) hpost (hw e he)),
    map_mapIdx]

theorem mapIdx_flatMap_flatten (post : List Segment) :
    ∀ (elems : List Json) (t : Nat → PathElem)
      (F : Json → List (List PathElem × Json)),
      (∀ e ∈ elems, sem e post = F e) →
      (elems.mapIdx (fun i e => (t i, e))).flatMap
        (fun ev => (sem ev.2 post).map (fun pw => (ev.1 :: pw.1, pw.2))) =
      (elems.mapIdx (fun i e =>
        (F e).map (fun pw => (t i :: pw.1, pw.2)))).flatten := by
  intro elems
  induction elems with
  | nil => intro t F _; rfl
  | cons e es ih =>
    intro t F h
    rw [List.mapIdx_cons, List.mapIdx_cons, List.flatMap_cons, List.flatten_cons]
    rw [h e (by simp), ih (fun i => t (i + 1)) F (fun x hx => h x (by simp [hx]))]

end TreeAutomaton
/-- C3: for a path of the shape `p1 ++ [*] ++ p2 ++ [*] ++ p3` with all
three chains wildcard-free, where the outer wildcard reaches an array
`outer`, every outer element reaches an array of length `k2` at the inner
wildcard, and `p3` succeeds under every inner element, `process` returns
the matches in outer-then-inner enumeration order, and their number is
`outer.length * k2`. -/
theorem claim_C3 (jsonData : Json) (p1 p2 p3 : List Segment)
    (outer : List Json) (inner : Json → List Json) (w : Json → Json) (k2 : Nat)
    (h1 : wildcardFree p1 = true) (h2 : wildcardFree p2 = true)
    (h3 : wildcardFree p3 = true)
    (hdet : detRun jsonData p1 = some (Json.arr outer))
    (hinner : ∀ o ∈ outer, detRun o p2 = some (Json.arr (inner o)))
    (hk2 : ∀ o ∈ outer, (inner o).length = k2)
    (hw : ∀ o ∈ outer, ∀ e ∈ inner o, detRun e p3 = some (w e)) :
    process (p1 ++ Segment.wildcard :: (p2 ++ Segment.wildcard :: p3))
        jsonData =
      (outer.mapIdx (fun i o => (inner o).mapIdx (fun j e =>
        (⟨w e, segPath p1 ++ PathElem.idx i :: (segPath p2 ++
          PathElem.idx j :: segPath p3)⟩ : JMatch)))).flatten
    ∧ (process (p1 ++ Segment.wildcard :: (p2 ++ Segment.wildcard :: p3))
        jsonData).length = outer.length * k2 := by
  have heq : process
      (p1 ++ Segment.wildcard :: (p2 ++ Segment.wildcard :: p3)) jsonData =
      (outer.mapIdx (fun i o => (inner o).mapIdx (fun j e =>
        (⟨w e, segPath p1 ++ PathElem.idx i :: (segPath p2 ++
          PathElem.idx j :: segPath p3)⟩ : JMatch)))).flatten := by
    rw [process_eq_sem, sem_append,
      sem_eq_single_of_detRun p1 jsonData (Json.arr outer) h1 hdet,
      List.flatMap_singleton, sem_wildcard_cons,
      mapIdx_flatMap_flatten (p2 ++ Segment.wildcard :: p3) outer PathElem.idx
        (fun o => (inner o).mapIdx (fun j e =>
          (segPath p2 ++ PathElem.idx j :: segPath p3, w e)))
        (fun o ho => sem_one_wildcard o p2 p3 (inner o) w h2 h3
          (hinner o ho) (hw o ho))]
    rw [List.map_flatten, List.map_flatten, map_mapIdx, map_mapIdx]
    simp only [map_mapIdx, List.map_map, Function.comp]
  refine ⟨heq, ?_⟩
  rw [heq, List.length_flatten, map_mapIdx]
  simp only [List.length_mapIdx]
  rw [TreeAutomaton.mapIdx_ignore outer (fun o => (inner o).length)]
  rw [List.map_congr_left (fun o ho => hk2 o ho)]
  rw [List.map_const', List.sum_replicate, smul_eq_mul]

/-- Witness for C3: two nested wildcards over a 2-by-2 array of arrays
yield 2 * 2 matches. -/
theorem claim_C3_witness :
    (process ([Segment.property "a"] ++ Segment.wildcard ::
        ([] ++ Segment.wildcard :: ([] : List Segment)))
        (Json.obj [("a", Json.arr [Json.arr [Json.num 1, Json.num 2],
          Json.arr [Json.num 3, Json.num 4]])])).length = 2 * 2 :=
  (claim_C3
    (Json.obj [("a", Json.arr [Json.arr [Json.num 1, Json.num 2],
      Json.arr [Json.num 3, Json.num 4]])])
    [Segment.property "a"] [] []
    [Json.arr [Json.num 1, Json.num 2], Json.arr [Json.num 3, Json.num 4]]
    (fun o => match o with | Json.arr es => es | _ => [])
    (fun e => e) 2
    (by decide) (by decide) (by decide) rfl
    (by
      intro o ho
      rcases List.mem_cons.mp ho with rfl | ho
      · rfl
      rcases List.mem_cons.mp ho with rfl | ho
      · rfl
      cases ho)
    (by
      intro o ho
      rcases List.mem_cons.mp ho with rfl | ho
      · rfl
      rcases List.mem_cons.mp ho with rfl | ho
      · rfl
      cases ho)
    (fun o _ e _ => rfl)).2

namespace Transformer

open TreeAutomaton

/-- Lodash `baseGt` ordering on the value fragment the engine exercises:
numbers by numeric order and strings lexicographically; any other or
mixed comparison is false (JS would coerce through `NaN` there; no path in
the repository compares such values). -/
def jsGt : Json → Json → Bool
  | Json.num a, Json.num b => b < a
  | Json.str a, Json.str b => b < a
  | _, _ => false

/-- Lodash `baseLt`, the mirror of `jsGt`. -/
def jsLt : Json → Json → Bool
  | Json.num a, Json.num b => a < b
  | Json.str a, Json.str b => a < b
  | _, _ => false

/-- Lodash `baseExtremum`, the engine of `_.max` and `_.min`: the running
best starts as `undefined`; a candidate replaces an `undefined` best
unless it is `NaN`, and otherwise replaces the best when the comparator
accepts it.  The empty list yields `undefined`. -/
def extremum (comparator : Json → Json → Bool) (values : List Json) : Json :=
  values.foldl (fun acc v =>
    match acc with
    | Json.undef => match v with | Json.nan => Json.undef | _ => v
    | _ => if comparator v acc then v else acc) Json.undef

/-- JS `+` on the numeric fragment: two numbers add; any other combination
is modelled as `NaN` (string concatenation and other coercions are never
exercised by the aggregate pipeline). -/
def jsAdd : Json → Json → Json
  | Json.num a, Json.num b => Json.num (a + b)
  | _, _ => Json.nan

/-- Lodash `_.sum`: `0` on the empty list (the lodash wrapper checks
`array.length` first), otherwise the left fold of `+` from the head. -/
def sumValues (values : List Json) : Json :=
  match values with
  | [] => Json.num 0
  | v :: vs => vs.foldl jsAdd v

/-- Lodash `_.mean`: `NaN` on the empty list; otherwise the sum divided by
the length.  Integer division stands in for JS float division (exact on
divisible inputs; `avg` is not exercised by any claim). -/
def meanValues (values : List Json) : Json :=
  match values with
  | [] => Json.nan
  | _ :: _ =>
      match sumValues values with
      | Json.num s => Json.num (s / values.length)
      | _ => Json.nan

/-- Lodash `_.first`: the head, `undefined` on the empty list. -/
def firstValue (values : List Json) : Json := values.headD Json.undef

/-- Lodash `_.last`: the last element, `undefined` on the empty list. -/
def lastValue (values : List Json) : Json := values.getLastD Json.undef

/-- The `count` aggregate: `values.length`. -/
def countValue (values : List Json) : Json := Json.num values.length

/-- Lodash `_.uniq`: first-seen order, later duplicates dropped
(SameValueZero equality, which structural equality models). -/
def uniqueValues (values : List Json) : Json :=
  Json.arr (values.foldl (fun acc v =>
    if acc.contains v then acc else acc ++ [v]) [])

/-- Lodash `_.sortBy` with the identity iteratee: a stable sort in natural
ascending order on the exercised fragment (numbers, strings); unrelated
values keep their relative order. -/
def sortValues (values : List Json) : Json :=
  Json.arr (values.mergeSort (fun a b => ! jsGt a b))

/-- The `reverse` aggregate: `_.reverse([...values])`. -/
def reverseValues (values : List Json) : Json := Json.arr values.reverse

/-- Translation of the `aggregateOps` table of `src/transformer.js`; the
`Option` models the JS membership test `aggregateOps[operation]`. -/
def aggregateOps : String → Option (List Json → Json)
  | "max" => some (extremum jsGt)
  | "min" => some (extremum jsLt)
  | "sum" => some sumValues
  | "avg" => some meanValues
  | "count" => some countValue
  | "first" => some firstValue
  | "last" => some lastValue
  | "unique" => some uniqueValues
  | "sort" => some sortValues
  | "reverse" => some reverseValues
  | _ => none

/-- Word characters of the JS `\w` class. -/
def isWordChar (c : Char) : Bool := c.isAlphanum || c = '_'

/-- Translation of `parsePathWithOperation` from `src/transformer.js`: the
anchored regex `/\.(\w+)\(\)$/` modelled on the reversed character list —
a trailing `()` preceded by a non-empty word run preceded by a dot strips
the suffix and returns the operation name. -/
def parsePathWithOperation (jsonPath : String) : String × Option String :=
  match jsonPath.data.reverse with
  | ')' :: '(' :: rest =>
      let wrev := rest.takeWhile isWordChar
      if wrev ≠ [] ∧ (rest.drop wrev.length).head? = some '.' then
        (⟨jsonPath.data.take (jsonPath.data.length - (wrev.length + 3))⟩,
          some ⟨wrev.reverse⟩)
      else (jsonPath, none)
  | _ => (jsonPath, none)

/-- Translation of `extractValues` from `src/transformer.js`: parse off an
aggregate suffix, run the automaton, project the match values, then apply
a known aggregate — otherwise collapse a single match to its value and
return the list of values as an array. -/
def extractValues (jsonData : Json) (jsonPath : String) : Json :=
  let po := parsePathWithOperation jsonPath
  let results := process (parseJsonPath po.1) jsonData
  let values := results.map (fun r => r.value)
  match po.2 with
  | some operation =>
      match aggregateOps operation with
      | some f => f values
      | none => match values with | [v] => v | vs => Json.arr vs
  | none => match values with | [v] => v | vs => Json.arr vs

end Transformer

namespace Transformer

open TreeAutomaton

/-- Fuel-indexed decimal digit writer; the fuel only bounds the recursion
depth (any fuel at least the number itself is enough, as
`natToCharsAux_fuel` shows), keeping the recursion structural so that the
function computes definitionally. -/
def natToCharsAux : Nat → Nat → List Char
  | 0, n => [Char.ofNat (48 + n)]
  | fuel + 1, n =>
      if n < 10 then [Char.ofNat (48 + n)]
      else natToCharsAux fuel (n / 10) ++ [Char.ofNat (48 + n % 10)]

/-- Decimal digits of a natural number, most significant first — the JS
template interpolation of the index in the wildcard expansion. -/
def natToChars (n : Nat) : List Char :=
  natToCharsAux n n

/-- Conversion scan of `setValueAtPath`: the two global replacements
`[(digits)] -> .digits` then `[(]-free content)] -> .content` are modelled
by one left-to-right scan turning every bracket group with non-empty
`]`-free content into a dot-prefixed chunk.  The scanner state `none` is
outside any bracket; `some content` is inside one, accumulating its
characters.  The two regex passes and this scan agree on every bracket
group; empty (`[]`) groups and unterminated ones (flushed back verbatim at
end of input) are left untouched by both. -/
def convertScan : Option (List Char) → List Char → List Char
  | none, [] => []
  | none, c :: rest =>
      if c = '[' then convertScan (some []) rest
      else c :: convertScan none rest
  | some content, [] => '[' :: content
  | some content, c :: rest =>
      if c = ']' then
        if content = [] then '[' :: ']' :: convertScan none rest
        else '.' :: (content ++ convertScan none rest)
      else convertScan (some (content ++ [c])) rest

/-- Bracket-group conversion of `setValueAtPath`, via `convertScan`. -/
def convertBrackets (l : List Char) : List Char :=
  convertScan none l

/-- Dot-splitting of a lodash string path (`stringToPath` restricted to
the plain dotted keys `setValueAtPath` produces); the first argument is
the pending chunk. -/
def splitDots : List Char → List Char → List String
  | current, [] => [⟨current⟩]
  | current, c :: rest =>
      if c = '.' then ⟨current⟩ :: splitDots [] rest
      else splitDots (current ++ [c]) rest

/-- Own-member read used by `_.set` while walking: an object field, or an
array element at a canonical in-range index key. -/
def getOwnForSet : Json → String → Option Json
  | Json.obj fields, k => Json.findField fields k
  | Json.arr elems, k =>
      if Json.isCanonicalIndex k ∧ Json.charsToNat k.data < elems.length then
        some (elems.getD (Json.charsToNat k.data) Json.undef)
      else none
  | _, _ => none

/-- Single-key assignment of `_.set` (lodash `assignValue`): replace or
append an object field; overwrite, append or pad an array at an index
key.  A non-index key on an array would set a named property on the JS
array object, which this value model cannot represent and the engine
never does; lodash leaves a primitive target unchanged. -/
def assignKey (v : Json) (k : String) (nv : Json) : Json :=
  match v with
  | Json.obj fields =>
      if (Json.findField fields k).isSome then
        Json.obj (fields.map (fun kv => if kv.1 = k then (kv.1, nv) else kv))
      else Json.obj (fields ++ [(k, nv)])
  | Json.arr elems =>
      if Json.isCanonicalIndex k then
        if Json.charsToNat k.data < elems.length then
          Json.arr (elems.set (Json.charsToNat k.data) nv)
        else
          Json.arr (elems ++
            List.replicate (Json.charsToNat k.data - elems.length) Json.undef
            ++ [nv])
      else v
  | _ => v

/-- Fresh container chosen by `_.set` when walking past a missing or
non-object value: an array when the next key is an index, else an
object. -/
def freshFor (nextKey : String) : Json :=
  if Json.isCanonicalIndex nextKey then Json.arr [] else Json.obj []

/-- Translation of lodash `_.set` over a key list (`baseSet`): walk the
keys, materialising fresh containers over missing or primitive values,
and assign at the last key. -/
def lodashSet : Json → List String → Json → Json
  | v, [], _ => v
  | v, [k], nv => assignKey v k nv
  | v, k :: k' :: rest, nv =>
      let child := match getOwnForSet v k with
        | some c => if c.isObject then c else freshFor k'
        | none => freshFor k'
      assignKey v k (lodashSet child (k' :: rest) nv)

/-- Translation of `setValueAtPath` from `src/transformer.js`: strip the
root marker, convert bracket groups to dotted keys, then `_.set` into a
copy of the target (`_.cloneDeep` is the identity in this pure model). -/
def setValueAtPath (target : Json) (targetPath : String) (value : Json) :
    Json :=
  lodashSet target (splitDots [] (convertBrackets (stripRoot targetPath).data))
    value

/-- JS `String.prototype.includes`. -/
def containsSub (s pat : String) : Bool :=
  (List.range (s.data.length + 1)).any
    (fun i => pat.data.isPrefixOf (s.data.drop i))

/-- JS `String.prototype.replace` with a plain-string pattern: replace the
first occurrence only. -/
def replaceFirst : List Char → List Char → List Char → List Char
  | [], _, _ => []
  | c :: rest, pat, repl =>
      if pat.isPrefixOf (c :: rest) then repl ++ (c :: rest).drop pat.length
      else c :: replaceFirst rest pat repl

/-- Prefix of the target before the first occurrence of the pattern, the
JS `target.substring(0, target.indexOf('[*]'))` under the `includes`
guard. -/
def beforeFirst : List Char → List Char → List Char
  | [], _ => []
  | c :: rest, pat =>
      if pat.isPrefixOf (c :: rest) then [] else c :: beforeFirst rest pat

/-- Translation of `transformSingleRule` from `src/transformer.js` for
string-typed `source` and `target` (the duck-typed wrapper over rule
objects is `transformSingleRuleEntry`): an array extracted to a
wildcarded target expands positionally — the empty array writes `[]` at
the pre-wildcard prefix — while everything else is written whole at the
target. -/
def transformSingleRule (sourceData : Json) (source target : String)
    (accumulator : Json) : Json :=
  let extractedValue := extractValues sourceData source
  match extractedValue, containsSub target "[*]" with
  | Json.arr elems, true =>
      if elems.length = 0 then
        setValueAtPath accumulator ⟨beforeFirst target.data "[*]".data⟩
          (Json.arr [])
      else
        elems.enum.foldl (fun acc ie =>
          setValueAtPath acc
            ⟨replaceFirst target.data "[*]".data
              ('[' :: (natToChars ie.1 ++ [']']))⟩ ie.2) accumulator
  | ev, _ => setValueAtPath accumulator target ev

/-- Field read of the JS destructuring `const { source, target } = rule`:
a non-object rule yields `undefined` fields. -/
def ruleField (rule : Json) (k : String) : Option Json :=
  match rule with
  | Json.obj fields => Json.findField fields k
  | _ => none

/-- Duck-typed per-rule step of `transform`: a missing or non-string
`source` throws a `TypeError` inside `extractValues` before that rule's
extraction; a missing or non-string `target` throws at `target.includes`
after it — both abort the whole `transform` call, modelled in `Except`. -/
def transformSingleRuleEntry (sourceData : Json) (rule : Json)
    (accumulator : Json) : Except String Json :=
  match ruleField rule "source", ruleField rule "target" with
  | some (Json.str s), some (Json.str t) =>
      Except.ok (transformSingleRule sourceData s t accumulator)
  | _, _ => Except.error "TypeError"

/-- Translation of `transform` from `src/transformer.js`: destructure
`pathMappings` (a `null` or `undefined` rules object already throws at the
destructuring), reject a non-array with the validation error, then fold
the rules left-to-right from an empty accumulator.  A JS exception aborts
the whole call, so no partial accumulator ever escapes. -/
def isNullOrUndef : Json → Bool
  | Json.null => true
  | Json.undef => true
  | _ => false

def transform (sourceData : Json) (transformationRules : Json) :
    Except String Json :=
  if isNullOrUndef transformationRules then
    Except.error "TypeError"
  else
    match ruleField transformationRules "pathMappings" with
    | some (Json.arr pathMappings) =>
        pathMappings.foldlM
          (fun acc rule => transformSingleRuleEntry sourceData rule acc)
          (Json.obj [])
    | _ => Except.error "pathMappings must be an array"

/-- Translation of `validateRules` from `src/transformer.js`. -/
def validateRules (rules : Json) : Bool :=
  match rules with
  | Json.obj fields =>
      match Json.findField fields "pathMappings" with
      | some (Json.arr pathMappings) =>
          pathMappings.all (fun rule =>
            match ruleField rule "source", ruleField rule "target" with
            | some (Json.str _), some (Json.str _) => true
            | _, _ => false)
      | _ => false
  | _ => false

end Transformer

/-- C8: the aggregate reducers at the empty input: `sum` is the additive
identity 0, `count` is 0, and `max`, `min`, `first`, `last` all produce
the `undefined` sentinel; being total Lean functions, none can throw. -/
theorem claim_C8 :
    (Transformer.aggregateOps "sum").map (fun f => f []) = some (Json.num 0)
    ∧ (Transformer.aggregateOps "count").map (fun f => f []) = some (Json.num 0)
    ∧ (Transformer.aggregateOps "max").map (fun f => f []) = some Json.undef
    ∧ (Transformer.aggregateOps "min").map (fun f => f []) = some Json.undef
    ∧ (Transformer.aggregateOps "first").map (fun f => f []) = some Json.undef
    ∧ (Transformer.aggregateOps "last").map (fun f => f []) = some Json.undef :=
  ⟨rfl, rfl, rfl, rfl, rfl, rfl⟩

/-- Counterexample to C5: on a source with exactly one match and a target
containing an array wildcard, the value handed to the location writer is
the bare scalar, not the one-element list the claim requires; the writer
then files it under a literal `*` key. -/
theorem claim_C5_counterexample :
    (process (parseJsonPath "$.a.b[*].c")
      (Json.obj [("a", Json.obj [("b",
        Json.arr [Json.obj [("c", Json.num 5)]])])])).length = 1
    ∧ Transformer.containsSub "$.x[*].c" "[*]" = true
    ∧ Transformer.extractValues
        (Json.obj [("a", Json.obj [("b",
          Json.arr [Json.obj [("c", Json.num 5)]])])]) "$.a.b[*].c" =
        Json.num 5
    ∧ Transformer.extractValues
        (Json.obj [("a", Json.obj [("b",
          Json.arr [Json.obj [("c", Json.num 5)]])])]) "$.a.b[*].c" ≠
        Json.arr [Json.num 5] := by
  refine ⟨rfl, rfl, rfl, ?_⟩
  intro hcontra
  rw [show Transformer.extractValues
      (Json.obj [("a", Json.obj [("b",
        Json.arr [Json.obj [("c", Json.num 5)]])])]) "$.a.b[*].c" =
      Json.num 5 from rfl] at hcontra
  simp at hcontra

/-- C5 amended: without an aggregate suffix the extracted value collapses
to the single match's value exactly when there is one match — regardless
of the target expression — and otherwise is the array of all matched
values in order. -/
theorem claim_C5 (jsonData : Json) (jsonPath : String)
    (h : (Transformer.parsePathWithOperation jsonPath).2 = none) :
    Transformer.extractValues jsonData jsonPath =
      (match (process
          (parseJsonPath (Transformer.parsePathWithOperation jsonPath).1)
          jsonData).map (fun r => r.value) with
        | [v] => v
        | vs => Json.arr vs) := by
  simp only [Transformer.extractValues, h]

/-- Witness for C5 at a single-match path. -/
theorem claim_C5_witness :
    Transformer.extractValues (Json.obj [("a", Json.num 1)]) "$.a" =
      (match (process
          (parseJsonPath (Transformer.parsePathWithOperation "$.a").1)
          (Json.obj [("a", Json.num 1)])).map (fun r => r.value) with
        | [v] => v
        | vs => Json.arr vs) :=
  claim_C5 (Json.obj [("a", Json.num 1)]) "$.a" rfl

/-- Counterexample to C6: parsing the unterminated bracket expression
`$.a[3` reports nothing — the pending bracket content is reinterpreted as
a property segment instead of raising a ParseError. -/
theorem claim_C6_counterexample :
    parseJsonPath "$.a[3" = [Segment.property "a", Segment.property "3"] := by
  decide

namespace TreeAutomaton

/-- Characters with no special parsing role: anything but `.`, `[` and
`]`. -/
def plainChar (c : Char) : Bool := c ≠ '.' ∧ c ≠ '[' ∧ c ≠ ']'

theorem parseStep_plain (st : ParseState) (c : Char)
    (hc : plainChar c = true) :
    parseStep st c = { st with current := st.current ++ [c] } := by
  simp only [plainChar, Bool.decide_and, Bool.and_eq_true, decide_eq_true_eq] at hc
  unfold parseStep
  rw [if_neg hc.2.1, if_neg hc.2.2, if_neg (fun hand => hc.1 hand.1)]

theorem parseStep_plain_run :
    ∀ (cs : List Char) (st : ParseState), cs.all plainChar = true →
      cs.foldl parseStep st = { st with current := st.current ++ cs } := by
  intro cs
  induction cs with
  | nil => intro st _; simp
  | cons c cs ih =>
    intro st h
    rw [List.all_cons, Bool.and_eq_true] at h
    rw [List.foldl_cons, parseStep_plain st c h.1, ih _ h.2]
    simp

end TreeAutomaton

/-- C6 amended: `parseJsonPath` is total and reports no error; for a path
`$.<name>[<content>` whose bracket group is never closed, the pending
content is flushed as a property segment at end of input — the malformed
group is silently reinterpreted, never surfaced as a ParseError. -/
theorem claim_C6 (name content : List Char)
    (hn : name ≠ []) (hc : content ≠ [])
    (hnp : name.all TreeAutomaton.plainChar = true)
    (hcp : content.all TreeAutomaton.plainChar = true) :
    parseJsonPath ("$." ++ (⟨name⟩ : String) ++ "[" ++ (⟨content⟩ : String)) =
      [Segment.property ⟨name⟩, Segment.property ⟨content⟩] := by
  have hdata : ("$." ++ (⟨name⟩ : String) ++ "[" ++ (⟨content⟩ : String))
      = (⟨'$' :: '.' :: (name ++ '[' :: content)⟩ : String) := by
    apply String.ext
    simp [String.data_append]
  unfold parseJsonPath
  rw [hdata]
  rw [show stripRoot (⟨'$' :: '.' :: (name ++ '[' :: content)⟩ : String) =
      (⟨name ++ '[' :: content⟩ : String) from rfl]
  show flushProperty ((name ++ '[' :: content).foldl parseStep ⟨[], [], false⟩).segments
      ((name ++ '[' :: content).foldl parseStep ⟨[], [], false⟩).current = _
  rw [List.foldl_append, parseStep_plain_run name ⟨[], [], false⟩ hnp,
    List.foldl_cons]
  rw [show parseStep { segments := [], current := [] ++ name, inBracket := false } '['
      = { segments := flushProperty [] ([] ++ name), current := [],
          inBracket := true } from rfl]
  rw [parseStep_plain_run content _ hcp]
  simp only [List.nil_append]
  unfold flushProperty
  rw [if_neg hn, if_neg hc]
  rfl

/-- Witness for C6 at the concrete malformed path `$.a[3`. -/
theorem claim_C6_witness :
    parseJsonPath ("$." ++ (⟨['a']⟩ : String) ++ "[" ++ (⟨['3']⟩ : String)) =
      [Segment.property ⟨['a']⟩, Segment.property ⟨['3']⟩] :=
  claim_C6 ['a'] ['3'] (by decide) (by decide) (by decide) (by decide)

/-- Counterexample to C7: a rule list whose second entry is missing its
`source` fails rule validation, yet `transform` rejects it with a
`TypeError` raised during the fold — not with the validation error — and
the same call with only the first entry completes its extraction and
write, showing work happens before the malformed entry is reached. -/
theorem claim_C7_counterexample :
    Transformer.validateRules
      (Json.obj [("pathMappings", Json.arr
        [Json.obj [("source", Json.str "$.a"), ("target", Json.str "$.b")],
         Json.obj [("target", Json.str "$.d")]])]) = false
    ∧ Transformer.transform (Json.obj [("a", Json.num 1)])
        (Json.obj [("pathMappings", Json.arr
          [Json.obj [("source", Json.str "$.a"), ("target", Json.str "$.b")],
           Json.obj [("target", Json.str "$.d")]])]) =
        Except.error "TypeError"
    ∧ (Except.error "TypeError" : Except String Json) ≠
        Except.error "pathMappings must be an array"
    ∧ Transformer.transform (Json.obj [("a", Json.num 1)])
        (Json.obj [("pathMappings", Json.arr
          [Json.obj [("source", Json.str "$.a"), ("target", Json.str "$.b")]])]) =
        Except.ok (Json.obj [("b", Json.num 1)]) := by
  refine ⟨rfl, rfl, ?_, rfl⟩
  intro hcontra
  exact absurd (Except.error.inj hcontra) (by decide)

/-- C7 amended: `transform` fails fast only on the non-array
`pathMappings` shape — whenever the rules object is not `null` or
`undefined` and carries no array-valued `pathMappings`, it is rejected
with the validation error before any extraction or write.  Per-entry
source/target shape is not validated by `transform`: a malformed entry
aborts the fold with a `TypeError` only when reached, after earlier
entries were extracted and written (the exception still prevents any
partial output from escaping); see the counterexample. -/
theorem claim_C7 (sourceData rules : Json)
    (hb : Transformer.isNullOrUndef rules = false)
    (h : ∀ l, Transformer.ruleField rules "pathMappings" ≠
      some (Json.arr l)) :
    Transformer.transform sourceData rules =
      Except.error "pathMappings must be an array" := by
  unfold Transformer.transform
  rw [hb]
  cases hrf : Transformer.ruleField rules "pathMappings" with
  | none => rfl
  | some v => cases v <;> first | rfl | exact absurd hrf (h _)

/-- Witness for C7 at a rules object whose `pathMappings` is a string. -/
theorem claim_C7_witness :
    Transformer.transform (Json.obj [("a", Json.num 1)])
      (Json.obj [("pathMappings", Json.str "nope")]) =
      Except.error "pathMappings must be an array" :=
  claim_C7 (Json.obj [("a", Json.num 1)])
    (Json.obj [("pathMappings", Json.str "nope")]) rfl
    (fun l hl => by
      rw [show Transformer.ruleField
          (Json.obj [("pathMappings", Json.str "nope")]) "pathMappings" =
          some (Json.str "nope") from rfl] at hl
      exact absurd (Option.some.inj hl) (by simp))

/-- Counterexample to C4: on a source array of length 1 the extraction
collapses to a scalar, the wildcard branch of the writer is skipped, and
the value lands under a literal `*` key instead of index 0 — the
round trip fails for k = 1. -/
theorem claim_C4_counterexample :
    Transformer.transformSingleRule
      (Json.obj [("a", Json.obj [("b",
        Json.arr [Json.obj [("c", Json.num 5)]])])])
      "$.a.b[*].c" "$.x[*].c" (Json.obj []) =
      Json.obj [("x", Json.obj [("*", Json.obj [("c", Json.num 5)])])]
    ∧ Json.obj [("x", Json.obj [("*", Json.obj [("c", Json.num 5)])])] ≠
      Json.obj [("x", Json.arr [Json.obj [("c", Json.num 5)]])] := by
  refine ⟨rfl, ?_⟩
  simp

namespace Transformer

theorem digitChar_spec (m : Nat) (hm : m < 10) :
    (Char.ofNat (48 + m)).isDigit = true
    ∧ (Char.ofNat (48 + m)).toNat = 48 + m
    ∧ Char.ofNat (48 + m) ≠ ']'
    ∧ Char.ofNat (48 + m) ≠ '.'
    ∧ Char.ofNat (48 + m) ≠ '[' := by
  interval_cases m <;>
    exact ⟨by decide, by decide, by decide, by decide, by decide⟩

theorem charsToNat_append_single (l : List Char) (c : Char) :
    Json.charsToNat (l ++ [c]) = Json.charsToNat l * 10 + (c.toNat - 48) := by
  unfold Json.charsToNat
  rw [List.foldl_append]
  rfl

theorem natToCharsAux_spec : ∀ (fuel n : Nat), n ≤ fuel →
    ∃ c cs, natToCharsAux fuel n = c :: cs
      ∧ (c :: cs).all Char.isDigit = true
      ∧ Json.charsToNat (c :: cs) = n
      ∧ (n = 0 → c = '0' ∧ cs = [])
      ∧ (n ≠ 0 → c ≠ '0') := by
  intro fuel
  induction fuel with
  | zero =>
    intro n hn
    interval_cases n
    exact ⟨'0', [], by decide, by decide, by decide,
      fun _ => ⟨rfl, rfl⟩, fun h => absurd rfl h⟩
  | succ fuel ih =>
    intro n hn
    by_cases h10 : n < 10
    · have hstep : natToCharsAux (fuel + 1) n = [Char.ofNat (48 + n)] := by
        rw [natToCharsAux, if_pos h10]
      refine ⟨Char.ofNat (48 + n), [], hstep, ?_, ?_, ?_, ?_⟩
      · simp [List.all_cons, (digitChar_spec n h10).1]
      · show Json.charsToNat ([] ++ [Char.ofNat (48 + n)]) = n
        rw [charsToNat_append_single, (digitChar_spec n h10).2.1]
        show Json.charsToNat [] * 10 + (48 + n - 48) = n
        rw [show Json.charsToNat [] = 0 from rfl]
        omega
      · intro h0
        subst h0
        exact ⟨by decide, rfl⟩
      · intro hne hc
        have htn := congrArg Char.toNat hc
        rw [(digitChar_spec n h10).2.1,
          show ('0').toNat = 48 from rfl] at htn
        omega
    · have hdiv : n / 10 < n := Nat.div_lt_self (by omega) (by omega)
      obtain ⟨c, cs, heq, hall, hval, _, hnz⟩ :=
        ih (n / 10) (by omega)
      have hstep : natToCharsAux (fuel + 1) n =
          c :: (cs ++ [Char.ofNat (48 + n % 10)]) := by
        rw [natToCharsAux, if_neg h10, heq]
        rfl
      have hm : n % 10 < 10 := Nat.mod_lt _ (by omega)
      refine ⟨c, cs ++ [Char.ofNat (48 + n % 10)], hstep, ?_, ?_, ?_, ?_⟩
      · simp only [List.all_cons, List.all_append, Bool.and_eq_true] at hall ⊢
        exact ⟨hall.1, hall.2, by simp [(digitChar_spec _ hm).1]⟩
      · have : (c :: (cs ++ [Char.ofNat (48 + n % 10)])) =
            (c :: cs) ++ [Char.ofNat (48 + n % 10)] := rfl
        rw [this, charsToNat_append_single, hval, (digitChar_spec _ hm).2.1]
        omega
      · intro h0
        omega
      · intro _
        have h1 : 1 ≤ n / 10 := Nat.one_le_div_iff (by omega) |>.mpr (by omega)
        exact hnz (by omega)

theorem natToChars_spec (n : Nat) :
    ∃ c cs, natToChars n = c :: cs
      ∧ (c :: cs).all Char.isDigit = true
      ∧ Json.charsToNat (c :: cs) = n
      ∧ (n = 0 → c = '0' ∧ cs = [])
      ∧ (n ≠ 0 → c ≠ '0') :=
  natToCharsAux_spec n n (Nat.le_refl n)

theorem natToChars_ne_nil (n : Nat) : natToChars n ≠ [] := by
  obtain ⟨c, cs, heq, _⟩ := natToChars_spec n
  rw [heq]
  simp

theorem natToChars_all_digit (n : Nat) :
    (natToChars n).all Char.isDigit = true := by
  obtain ⟨c, cs, heq, hall, _⟩ := natToChars_spec n
  rw [heq]
  exact hall

theorem charsToNat_natToChars (n : Nat) :
    Json.charsToNat (natToChars n) = n := by
  obtain ⟨c, cs, heq, _, hval, _⟩ := natToChars_spec n
  rw [heq]
  exact hval

theorem natToChars_canonical (n : Nat) :
    Json.isCanonicalIndex ⟨natToChars n⟩ = true := by
  obtain ⟨c, cs, heq, hall, _, hzero, hnz⟩ := natToChars_spec n
  unfold Json.isCanonicalIndex
  rw [show (⟨natToChars n⟩ : String).data = natToChars n from rfl, heq]
  simp only [List.all_cons, Bool.and_eq_true] at hall
  by_cases h0 : n = 0
  · obtain ⟨rfl, rfl⟩ := hzero h0
    decide
  · simp [hnz h0, hall.1, hall.2]

theorem digit_not_special (c : Char) (hc : c.isDigit = true) :
    c ≠ ']' ∧ c ≠ '.' ∧ c ≠ '[' := by
  refine ⟨?_, ?_, ?_⟩ <;> intro he <;> subst he <;> exact absurd hc (by decide)

end Transformer

namespace Transformer

theorem replaceFirst_target (repl : List Char) :
    replaceFirst "$.x[*].c".data "[*]".data repl =
      '$' :: '.' :: 'x' :: (repl ++ ['.', 'c']) := rfl

theorem convertScan_inBracket :
    ∀ (ds : List Char), ds.all (fun c => c ≠ ']') = true →
      ∀ (content rest : List Char),
        convertScan (some content) (ds ++ rest) =
          convertScan (some (content ++ ds)) rest := by
  intro ds
  induction ds with
  | nil => intro _ content rest; simp
  | cons d ds ih =>
    intro h content rest
    rw [List.all_cons, Bool.and_eq_true] at h
    have hd : d ≠ ']' := by simpa using h.1
    show convertScan (some content) (d :: (ds ++ rest)) = _
    rw [convertScan, if_neg hd, ih h.2, List.append_assoc]
    rfl

theorem splitDots_plain :
    ∀ (ds : List Char), ds.all (fun c => c ≠ '.') = true →
      ∀ (current rest : List Char),
        splitDots current (ds ++ rest) = splitDots (current ++ ds) rest := by
  intro ds
  induction ds with
  | nil => intro _ current rest; simp
  | cons d ds ih =>
    intro h current rest
    rw [List.all_cons, Bool.and_eq_true] at h
    have hd : d ≠ '.' := by simpa using h.1
    show splitDots current (d :: (ds ++ rest)) = _
    rw [splitDots, if_neg hd, ih h.2, List.append_assoc]
    rfl

theorem natToChars_no_rbracket (i : Nat) :
    (natToChars i).all (fun c => c ≠ ']') = true := by
  rw [List.all_eq_true]
  intro c hc
  have hd := natToChars_all_digit i
  rw [List.all_eq_true] at hd
  simpa using (digit_not_special c (hd c hc)).1

theorem natToChars_no_dot (i : Nat) :
    (natToChars i).all (fun c => c ≠ '.') = true := by
  rw [List.all_eq_true]
  intro c hc
  have hd := natToChars_all_digit i
  rw [List.all_eq_true] at hd
  simpa using (digit_not_special c (hd c hc)).2.1

theorem keys_target (i : Nat) :
    splitDots [] (convertBrackets (TreeAutomaton.stripRoot
      ⟨'$' :: '.' :: 'x' :: (('[' :: (natToChars i ++ [']'])) ++
        ['.', 'c'])⟩).data) = ["x", ⟨natToChars i⟩, "c"] := by
  rw [show TreeAutomaton.stripRoot
      ⟨'$' :: '.' :: 'x' :: (('[' :: (natToChars i ++ [']'])) ++ ['.', 'c'])⟩ =
      (⟨'x' :: (('[' :: (natToChars i ++ [']'])) ++ ['.', 'c'])⟩ : String)
    from rfl]
  show splitDots [] (convertScan none
    ('x' :: '[' :: ((natToChars i ++ [']']) ++ ['.', 'c']))) = _
  rw [show convertScan none
      ('x' :: '[' :: ((natToChars i ++ [']']) ++ ['.', 'c'])) =
      'x' :: convertScan (some []) ((natToChars i ++ [']']) ++ ['.', 'c'])
    from rfl]
  rw [List.append_assoc]
  rw [convertScan_inBracket (natToChars i) (natToChars_no_rbracket i)]
  show splitDots [] ('x' :: convertScan (some ([] ++ natToChars i))
    (']' :: ['.', 'c'])) = _
  rw [List.nil_append]
  rw [convertScan, if_pos rfl, if_neg (natToChars_ne_nil i)]
  show splitDots ([] ++ ['x']) ('.' :: (natToChars i ++ ['.', 'c'])) = _
  rw [splitDots, if_pos rfl]
  rw [show (['.', 'c'] : List Char) = '.' :: ['c'] from rfl]
  rw [splitDots_plain (natToChars i) (natToChars_no_dot i)]
  rw [splitDots, if_pos rfl, List.nil_append]
  rfl

end Transformer

namespace Transformer

theorem getOwnForSet_arr_at_length (l : List Json) :
    getOwnForSet (Json.arr l) ⟨natToChars l.length⟩ = none := by
  unfold getOwnForSet
  dsimp only
  rw [if_neg]
  intro hcontra
  have := hcontra.2
  rw [charsToNat_natToChars] at this
  omega

theorem assignKey_arr_at_length (l : List Json) (nv : Json) :
    assignKey (Json.arr l) ⟨natToChars l.length⟩ nv = Json.arr (l ++ [nv]) := by
  unfold assignKey
  dsimp only
  rw [if_pos (natToChars_canonical l.length)]
  rw [show Json.charsToNat (⟨natToChars l.length⟩ : String).data = l.length
    from charsToNat_natToChars l.length]
  rw [if_neg (by omega)]
  rw [Nat.sub_self]
  simp

theorem lodashSet_arr_append (l : List Json) (item : Json) :
    lodashSet (Json.arr l) [⟨natToChars l.length⟩, "c"] item =
      Json.arr (l ++ [Json.obj [("c", item)]]) := by
  show assignKey (Json.arr l) ⟨natToChars l.length⟩
    (lodashSet (match getOwnForSet (Json.arr l) ⟨natToChars l.length⟩ with
      | some c => if c.isObject then c else freshFor "c"
      | none => freshFor "c") ["c"] item) = _
  rw [getOwnForSet_arr_at_length]
  rw [show lodashSet (freshFor "c") ["c"] item = Json.obj [("c", item)]
    from rfl]
  exact assignKey_arr_at_length l (Json.obj [("c", item)])

theorem lodashSet_outer (l : List Json) (item : Json) :
    lodashSet (Json.obj [("x", Json.arr l)])
      ["x", ⟨natToChars l.length⟩, "c"] item =
      Json.obj [("x", Json.arr (l ++ [Json.obj [("c", item)]]))] := by
  show assignKey (Json.obj [("x", Json.arr l)]) "x"
    (lodashSet (match getOwnForSet (Json.obj [("x", Json.arr l)]) "x" with
      | some c => if c.isObject then c else freshFor ⟨natToChars l.length⟩
      | none => freshFor ⟨natToChars l.length⟩)
      [⟨natToChars l.length⟩, "c"] item) = _
  rw [show getOwnForSet (Json.obj [("x", Json.arr l)]) "x" =
      some (Json.arr l) from rfl]
  show assignKey (Json.obj [("x", Json.arr l)]) "x"
    (lodashSet (Json.arr l) [⟨natToChars l.length⟩, "c"] item) = _
  rw [lodashSet_arr_append]
  rfl

theorem write_step (l : List Json) (item : Json) :
    setValueAtPath (Json.obj [("x", Json.arr l)])
      ⟨replaceFirst "$.x[*].c".data "[*]".data
        ('[' :: (natToChars l.length ++ [']']))⟩ item =
      Json.obj [("x", Json.arr (l ++ [Json.obj [("c", item)]]))] := by
  rw [replaceFirst_target]
  unfold setValueAtPath
  rw [keys_target l.length]
  exact lodashSet_outer l item

theorem write_zero (item : Json) :
    setValueAtPath (Json.obj [])
      ⟨replaceFirst "$.x[*].c".data "[*]".data
        ('[' :: (natToChars 0 ++ [']']))⟩ item =
      Json.obj [("x", Json.arr [Json.obj [("c", item)]])] := rfl

end Transformer

namespace Transformer

theorem extractValues_books (vs : List Json) :
    extractValues
      (Json.obj [("a", Json.obj [("b",
        Json.arr (vs.map (fun v => Json.obj [("c", v)])))])])
      "$.a.b[*].c" =
      (match vs with | [v] => v | vs' => Json.arr vs') := by
  have hpo : parsePathWithOperation "$.a.b[*].c" = ("$.a.b[*].c", none) := rfl
  have hsegs : TreeAutomaton.parseJsonPath "$.a.b[*].c" =
      [Segment.property "a", Segment.property "b"] ++
        Segment.wildcard :: [Segment.property "c"] := by decide
  have hwe : ∀ e ∈ vs.map (fun v => Json.obj [("c", v)]),
      TreeAutomaton.detRun e [Segment.property "c"] =
        some (e.getProp "c") := by
    intro e he
    rcases List.mem_map.mp he with ⟨v, _, rfl⟩
    rfl
  simp only [extractValues, hpo]
  rw [hsegs, TreeAutomaton.process_eq_sem,
    TreeAutomaton.sem_one_wildcard
      (Json.obj [("a", Json.obj [("b",
        Json.arr (vs.map (fun v => Json.obj [("c", v)])))])])
      [Segment.property "a", Segment.property "b"] [Segment.property "c"]
      (vs.map (fun v => Json.obj [("c", v)])) (fun e => e.getProp "c")
      (by decide) (by decide) rfl hwe,
    TreeAutomaton.map_mapIdx, TreeAutomaton.map_mapIdx]
  rw [TreeAutomaton.mapIdx_ignore
      (vs.map (fun v => Json.obj [("c", v)])) (fun e => e.getProp "c")]
  rw [List.map_map]
  rw [show ((fun e => Json.getProp e "c") ∘
      (fun v => Json.obj [("c", v)])) = (fun v : Json => v) from rfl]
  rw [List.map_id']

theorem fold_writes : ∀ (items l : List Json),
    (List.enumFrom l.length items).foldl (fun acc ie =>
      setValueAtPath acc
        ⟨replaceFirst "$.x[*].c".data "[*]".data
          ('[' :: (natToChars ie.1 ++ [']']))⟩ ie.2)
      (Json.obj [("x", Json.arr l)]) =
    Json.obj [("x", Json.arr
      (l ++ items.map (fun v => Json.obj [("c", v)])))] := by
  intro items
  induction items with
  | nil => intro l; simp
  | cons v vsTail ih =>
    intro l
    rw [List.enumFrom_cons, List.foldl_cons]
    show (List.enumFrom (l.length + 1) vsTail).foldl _
      (setValueAtPath (Json.obj [("x", Json.arr l)])
        ⟨replaceFirst "$.x[*].c".data "[*]".data
          ('[' :: (natToChars l.length ++ [']']))⟩ v) = _
    rw [write_step]
    rw [show l.length + 1 = (l ++ [Json.obj [("c", v)]]).length by simp]
    rw [ih (l ++ [Json.obj [("c", v)]])]
    simp

end Transformer

/-- C4 amended: the extract-then-write round trip through the one-wildcard
source `$.a.b[*].c` and one-wildcard target `$.x[*].c` reproduces the
source array's positional ordering for every array of length at least 2;
for k = 1 the extraction collapses to a scalar, the wildcard target is not
expanded and the value lands under a literal `*` key (see the
counterexample), so the round trip fails there. -/
theorem claim_C4 (vs : List Json) (h : 2 ≤ vs.length) :
    Transformer.transformSingleRule
      (Json.obj [("a", Json.obj [("b",
        Json.arr (vs.map (fun v => Json.obj [("c", v)])))])])
      "$.a.b[*].c" "$.x[*].c" (Json.obj []) =
      Json.obj [("x", Json.arr (vs.map (fun v => Json.obj [("c", v)])))] := by
  obtain ⟨v0, v1, vsTail, rfl⟩ :
      ∃ v0 v1 vsTail, vs = v0 :: v1 :: vsTail := by
    cases vs with
    | nil => exact absurd h (by decide)
    | cons v0 rest =>
      cases rest with
      | nil => exact absurd h (by simp)
      | cons v1 t => exact ⟨v0, v1, t, rfl⟩
  simp only [Transformer.transformSingleRule]
  rw [Transformer.extractValues_books (v0 :: v1 :: vsTail)]
  rw [show Transformer.containsSub "$.x[*].c" "[*]" = true from rfl]
  dsimp only
  rw [if_neg (by simp)]
  show (List.enumFrom 0 (v0 :: v1 :: vsTail)).foldl _ (Json.obj []) = _
  rw [List.enumFrom_cons, List.foldl_cons]
  show (List.enumFrom 1 (v1 :: vsTail)).foldl _
    (Transformer.setValueAtPath (Json.obj [])
      ⟨Transformer.replaceFirst "$.x[*].c".data "[*]".data
        ('[' :: (Transformer.natToChars 0 ++ [']']))⟩ v0) = _
  rw [Transformer.write_zero]
  rw [show (1 : Nat) = ([Json.obj [("c", v0)]] : List Json).length from rfl]
  rw [Transformer.fold_writes (v1 :: vsTail) [Json.obj [("c", v0)]]]
  simp

/-- Witness for C4 at a two-element source array. -/
theorem claim_C4_witness :
    Transformer.transformSingleRule
      (Json.obj [("a", Json.obj [("b",
        Json.arr ([Json.num 1, Json.num 2].map
          (fun v => Json.obj [("c", v)])))])])
      "$.a.b[*].c" "$.x[*].c" (Json.obj []) =
      Json.obj [("x", Json.arr ([Json.num 1, Json.num 2].map
        (fun v => Json.obj [("c", v)])))] :=
  claim_C4 [Json.num 1, Json.num 2] (by decide)
